import Mathlib

/-!
Verification of the 8BitComputer programmer firmware (`src/Arduino/Arduino.ino`)
against its natural-language specification.

The development shallow-embeds the firmware's state-manipulating routines as
executable Lean functions: target RAM is a byte-indexed store, the EEPROM a
byte-indexed store with an explicit write log, the assembler a line-by-line
state transformer, and the execution engine `run` a recursion over a finite
list of per-instruction bus observations.  Machine bytes are `Nat` with
explicit `% 256` (resp. `% 16` for nibbles) where the C code's `byte` type
truncates.
-/

namespace EightBit

/-- Target RAM model: byte-addressable store, addresses taken mod 256 because
the firmware drives the address byte onto an 8-bit bus (`byte address = start+i`). -/
def Ram : Type := Nat → Nat

/-- One RAM store as performed by driving the address and data bytes
(both truncated to 8 bits as in the C `byte` type). -/
def Ram.store (ram : Ram) (a v : Nat) : Ram :=
  fun x => if x = a % 256 then v % 256 else ram x

/-- `write_ram(data, start, len)` (Arduino.ino lines 223-260): writes `data[i]`
to address `start+i` for `i = 0..len-1`, one byte per clock cycle. -/
def write_ram (ram : Ram) (start : Nat) : List Nat → Ram
  | [] => ram
  | d :: ds => write_ram (ram.store start d) (start + 1) ds

/-- `read_ram(data, start, len)` (Arduino.ino lines 186-220): reads `len` bytes
starting at address `start`. -/
def read_ram (ram : Ram) (start len : Nat) : List Nat :=
  (List.range len).map fun i => ram ((start + i) % 256)

theorem write_ram_unchanged (data : List Nat) (ram : Ram) (start : Nat) (x : Nat)
    (hx : ∀ i < data.length, x ≠ (start + i) % 256) :
    write_ram ram start data x = ram x := by
  induction data generalizing ram start with
  | nil => rfl
  | cons d ds ih =>
    rw [write_ram, ih]
    · have h0 := hx 0 (Nat.succ_pos _)
      simp only [Nat.add_zero] at h0
      simp [Ram.store, h0]
    · intro i hi
      have := hx (i + 1) (by simpa using Nat.succ_lt_succ hi)
      simpa [Nat.add_assoc, Nat.add_comm 1 i] using this

theorem addr_mod (start i : Nat) (h : start % 256 + i < 256) :
    (start + i) % 256 = start % 256 + i := by
  have hi : i % 256 = i := Nat.mod_eq_of_lt (by omega)
  rw [Nat.add_mod, hi, Nat.mod_eq_of_lt h]

theorem write_ram_get (data : List Nat) (ram : Ram) (start : Nat)
    (hlen : start % 256 + data.length ≤ 256) (j : Nat) (hj : j < data.length) :
    write_ram ram start data ((start + j) % 256) = data.get ⟨j, hj⟩ % 256 := by
  induction data generalizing ram start j with
  | nil => exact absurd hj (Nat.not_lt_zero _)
  | cons d ds ih =>
    simp only [List.length_cons] at hlen
    have hs : start % 256 < 256 := Nat.mod_lt _ (by norm_num)
    rw [write_ram]
    cases j with
    | zero =>
      rw [write_ram_unchanged]
      · simp [Ram.store]
      · intro i hi hcontra
        have h1 : (start + 1 + i) % 256 = start % 256 + (1 + i) := by
          rw [Nat.add_assoc]
          exact addr_mod start (1 + i) (by omega)
        rw [Nat.add_zero, h1] at hcontra
        omega
    | succ j' =>
      have hj' : j' < ds.length := by simpa using Nat.lt_of_succ_lt_succ hj
      have hmod : (start + 1) % 256 = start % 256 + 1 := by
        have : j' < ds.length := hj'
        exact addr_mod start 1 (by omega)
      have := ih (ram.store start d) (start + 1) (by omega) j' hj'
      have harith : (start + 1 + j') % 256 = (start + (j' + 1)) % 256 := by
        ring_nf
      rw [harith] at this
      rw [this]
      rfl

/-- **C1.** For every start address and byte sequence that fits in the target
RAM's address range (16 bytes in the 4-bit configuration), writing the sequence
with the RAM transfer engine (`write_ram`) and then reading back the same
address range (`read_ram`) yields exactly the written sequence. -/
theorem ram_write_read_roundtrip (ram : Ram) (start : Nat) (data : List Nat)
    (hfit : start + data.length ≤ 16) (hbytes : ∀ d ∈ data, d < 256) :
    read_ram (write_ram ram start data) start data.length = data := by
  have hstart : start % 256 = start := Nat.mod_eq_of_lt (by omega)
  apply List.ext_get
  · simp [read_ram]
  · intro j h1 h2
    simp only [read_ram, List.get_eq_getElem, List.getElem_map, List.getElem_range]
    have hj : j < data.length := by simpa [read_ram] using h2
    have hsm : start % 256 = start := Nat.mod_eq_of_lt (by omega)
    have := write_ram_get data ram start (by omega) j hj
    simp only [List.get_eq_getElem] at this
    rw [this]
    exact Nat.mod_eq_of_lt (hbytes _ (data.getElem_mem hj))

/-- Witness for C1 at a concrete input. -/
theorem ram_write_read_roundtrip_witness :
    read_ram (write_ram (fun _ => 0) 2 [17, 255, 3]) 2 3 = [17, 255, 3] :=
  ram_write_read_roundtrip (fun _ => 0) 2 [17, 255, 3] (by norm_num)
    (by intro d hd; fin_cases hd <;> norm_num)

/-! ## EEPROM byte store (`write_eeprom`, `read_eeprom`, breakpoint persistence) -/

/-- Internal EEPROM model: byte-addressable store.  Addresses are `unsigned int`
(16 bits on the target controller), so address arithmetic is mod 65536. -/
def Eeprom : Type := Nat → Nat

/-- One `EEPROM.write(addr, val)` call. -/
def Eeprom.write1 (e : Eeprom) (a v : Nat) : Eeprom :=
  fun x => if x = a % 65536 then v % 256 else e x

/-- Sequential writes of a byte list starting at `start`, as performed inside
the bounds-checked branch of `write_eeprom`. -/
def eeprom_write_seq (e : Eeprom) (start : Nat) : List Nat → Eeprom
  | [] => e
  | d :: ds => eeprom_write_seq (e.write1 start d) (start + 1) ds

/-- `write_eeprom(buffer, internal, start, size)` (Arduino.ino lines 291-306):
writes `size` bytes iff `internal && start+size < 1024-16` (16-bit unsigned
arithmetic); otherwise returns `false` without touching the store. -/
def write_eeprom (e : Eeprom) (internal : Bool) (start size : Nat) (data : List Nat) :
    Bool × Eeprom :=
  if internal ∧ (start + size) % 65536 < 1024 - 16 then
    (true, eeprom_write_seq e start (data.take size))
  else
    (false, e)

/-- `read_eeprom(buffer, internal, start, size)` (Arduino.ino lines 309-324):
returns the bytes iff `internal && start+size < 1024-16`; otherwise fails. -/
def read_eeprom (e : Eeprom) (internal : Bool) (start size : Nat) : Option (List Nat) :=
  if internal ∧ (start + size) % 65536 < 1024 - 16 then
    some ((List.range size).map fun i => e ((start + i) % 65536))
  else
    none

/-- **C9** (code bug).  The code's own comment says `(1024-16)/16 = 63` programs
fit the reserved region, but the strict bound `start+size < 1024-16` rejects the
63rd 16-byte slot (addresses 992..1007), which lies entirely inside the
1008-byte reserved region.  A read of the same slot fails identically. -/
theorem write_eeprom_rejects_last_slot :
    (write_eeprom (fun _ => 0) true 992 16 (List.replicate 16 0)).fst = false ∧
    read_eeprom (fun _ => 0) true 992 16 = none ∧
    992 + 16 ≤ 1024 - 16 := by
  refine ⟨rfl, rfl, by norm_num⟩

/-! ## Breakpoint set and its persistence -/

/-- Write log of `save_breakpoints()` (Arduino.ino lines 1025-1030): the loop
`for(i<num) EEPROM.write(1021-i, breakpoints[i])` unrolled recursively, first
write at address `a`, next at `a-1`, and so on. -/
def bp_value_writes (bps : List Nat) (a : Nat) : List (Nat × Nat) :=
  match bps with
  | [] => []
  | b :: bs => (a, b) :: bp_value_writes bs (a - 1)

/-- The full (ordered) sequence of EEPROM writes performed by
`save_breakpoints()`: the value bytes at 1021 downwards, then the count byte
at 1022 — the count is written last. -/
def save_breakpoints_writes (bps : List Nat) : List (Nat × Nat) :=
  bp_value_writes bps 1021 ++ [(1022, bps.length)]

/-- Apply a write log to the store in order. -/
def apply_writes (e : Eeprom) : List (Nat × Nat) → Eeprom
  | [] => e
  | (a, v) :: ws => apply_writes (e.write1 a v) ws

/-- `load_breakpoints()` (Arduino.ino lines 1032-1041): reads the count byte at
1022 and, if it is at most `MAX_BREAKPOINTS`, the value bytes at 1021 downwards;
otherwise leaves the in-memory set `cur` unchanged. -/
def load_breakpoints (e : Eeprom) (cur : List Nat) : List Nat :=
  let n := e 1022
  if n ≤ 10 then (List.range n).map (fun i => e (1021 - i)) else cur

theorem apply_writes_append (e : Eeprom) (ws1 ws2 : List (Nat × Nat)) :
    apply_writes e (ws1 ++ ws2) = apply_writes (apply_writes e ws1) ws2 := by
  induction ws1 generalizing e with
  | nil => rfl
  | cons w ws ih => cases w; simp [apply_writes, ih]

theorem apply_writes_unchanged (ws : List (Nat × Nat)) (e : Eeprom) (x : Nat)
    (hx : ∀ w ∈ ws, x ≠ w.fst % 65536) :
    apply_writes e ws x = e x := by
  induction ws generalizing e with
  | nil => rfl
  | cons w ws ih =>
    cases w with
    | mk a v =>
      rw [apply_writes, ih]
      · have := hx (a, v) (List.mem_cons_self _ _)
        simp [Eeprom.write1, this]
      · exact fun w hw => hx w (List.mem_cons_of_mem _ hw)

theorem bp_value_writes_length (bps : List Nat) (a : Nat) :
    (bp_value_writes bps a).length = bps.length := by
  induction bps generalizing a with
  | nil => rfl
  | cons b bs ih => simpa [bp_value_writes] using ih (a - 1)

theorem bp_value_writes_addr (bps : List Nat) (a : Nat) (w : Nat × Nat)
    (hw : w ∈ bp_value_writes bps a) : w.fst ≤ a ∧ a < w.fst + bps.length := by
  induction bps generalizing a with
  | nil => simp [bp_value_writes] at hw
  | cons b bs ih =>
    simp only [bp_value_writes, List.mem_cons] at hw
    rcases hw with rfl | hw
    · simp only [List.length_cons]
      omega
    · have := ih (a - 1) hw
      simp only [List.length_cons]
      omega

theorem bp_value_writes_get (bps : List Nat) (a : Nat) (e : Eeprom)
    (ha : a < 65536) (hlen : bps.length ≤ a) (i : Nat) (hi : i < bps.length) :
    apply_writes e (bp_value_writes bps a) (a - i) = bps.getD i 0 % 256 := by
  induction bps generalizing a e i with
  | nil => exact absurd hi (Nat.not_lt_zero _)
  | cons b bs ih =>
    simp only [List.length_cons] at hlen
    rw [bp_value_writes, apply_writes]
    cases i with
    | zero =>
      rw [apply_writes_unchanged]
      · simp only [Nat.sub_zero, Eeprom.write1, Nat.mod_eq_of_lt ha, if_pos rfl]
        rfl
      · intro w hw
        have hb := bp_value_writes_addr bs (a - 1) w hw
        have : w.fst % 65536 = w.fst := Nat.mod_eq_of_lt (by omega)
        omega
    | succ i' =>
      have hi' : i' < bs.length := by simpa using Nat.lt_of_succ_lt_succ hi
      have := ih (a - 1) (e.write1 a b) (by omega) (by omega) i' hi'
      have harith : a - 1 - i' = a - (i' + 1) := by omega
      rw [harith] at this
      rw [this]
      rfl

/-- The result of processing the whole `save_breakpoints` write log. -/
theorem save_breakpoints_full (bps : List Nat) (e : Eeprom) :
    apply_writes e (save_breakpoints_writes bps) =
      (apply_writes e (bp_value_writes bps 1021)).write1 1022 bps.length := by
  rw [save_breakpoints_writes, apply_writes_append]
  rfl

/-- **C6** counterexample.  The claim says the persistence sequence writes "the
count followed by the values"; on the concrete one-element set `[5]` the very
first EEPROM write of `save_breakpoints` is the value write `(1021, 5)` — not a
write to the count byte at 1022, which comes last. -/
theorem save_breakpoints_count_not_first :
    (save_breakpoints_writes [5]).head? = some (1021, 5) ∧
    (1021, 5).fst ≠ 1022 ∧
    (save_breakpoints_writes [5]).getLast? = some (1022, 1) := by
  refine ⟨rfl, by norm_num, rfl⟩

/-- **C6** (amended).  `save_breakpoints` persists the whole set by writing the
value bytes first (addresses 1021 downwards) and the count byte at 1022 last;
every proper prefix of the write sequence leaves the stored count unchanged, so
a torn write never installs a new count without all of its values; and after
the full sequence, `load_breakpoints` recovers exactly the saved set. -/
theorem save_breakpoints_transactional (bps : List Nat) (e : Eeprom)
    (hlen : bps.length ≤ 10) (hbytes : ∀ b ∈ bps, b < 256) :
    ((save_breakpoints_writes bps).getLast? = some (1022, bps.length) ∧
     ∀ w ∈ bp_value_writes bps 1021, w.fst ≠ 1022) ∧
    (∀ k < (save_breakpoints_writes bps).length,
        apply_writes e ((save_breakpoints_writes bps).take k) 1022 = e 1022) ∧
    load_breakpoints (apply_writes e (save_breakpoints_writes bps)) [] = bps := by
  have haddr : ∀ w ∈ bp_value_writes bps 1021, w.fst ≠ 1022 := by
    intro w hw
    have := bp_value_writes_addr bps 1021 w hw
    omega
  have hvlen : (bp_value_writes bps 1021).length = bps.length :=
    bp_value_writes_length bps 1021
  refine ⟨⟨?_, haddr⟩, ?_, ?_⟩
  · rw [save_breakpoints_writes, List.getLast?_append]
    rfl
  · intro k hk
    rw [save_breakpoints_writes, List.length_append, List.length_singleton] at hk
    have hk' : k ≤ (bp_value_writes bps 1021).length := by omega
    rw [save_breakpoints_writes, List.take_append_of_le_length hk']
    rw [apply_writes_unchanged]
    intro w hw
    have hmem := List.mem_of_mem_take hw
    have hb := bp_value_writes_addr bps 1021 w hmem
    have : w.fst % 65536 = w.fst := Nat.mod_eq_of_lt (by omega)
    omega
  · rw [save_breakpoints_full]
    have hcount : ((apply_writes e (bp_value_writes bps 1021)).write1 1022 bps.length) 1022 =
        bps.length := by
      simp only [Eeprom.write1, if_pos]
      · exact Nat.mod_eq_of_lt (by omega)
    rw [load_breakpoints]
    simp only [hcount, if_pos hlen]
    apply List.ext_get
    · simp [hvlen]
    · intro i h1 h2
      have hi : i < bps.length := by simpa using h2
      simp only [List.get_eq_getElem, List.getElem_map, List.getElem_range]
      have hne : (1021 - i : Nat) ≠ 1022 % 65536 := by omega
      simp only [Eeprom.write1, if_neg hne]
      have := bp_value_writes_get bps 1021 e (by norm_num) (by omega) i hi
      rw [this]
      have : bps.getD i 0 = bps[i] := List.getD_eq_getElem bps 0 hi
      rw [this]
      exact Nat.mod_eq_of_lt (hbytes _ (bps.getElem_mem hi))

/-- Witness for C6 at a concrete input. -/
theorem save_breakpoints_transactional_witness :
    load_breakpoints (apply_writes (fun _ => 0) (save_breakpoints_writes [3, 7])) [] = [3, 7] :=
  (save_breakpoints_transactional [3, 7] (fun _ => 0) (by norm_num)
    (by intro b hb; fin_cases hb <;> norm_num)).2.2

/-! ## Breakpoint mutation commands (monitor cases `b` and `B`) -/

/-- Outcome reported by a breakpoint command (the serial message printed). -/
inductive BpResult
  | added       -- "Added breakpoint at: …"
  | alreadyExists  -- "Breakpoint already exists."
  | tooMany     -- "Too many breakpoints."
  | removed     -- "Removed breakpoint at: …"
  | notFound    -- "Breakpoint not found."
  | removedAll  -- "Removing all breakpoints."
  deriving DecidableEq, Repr

/-- Monitor command `b a` (Arduino.ino lines 1347-1378): scan for `a`; if absent
and there is room, append it; duplicates and overflow are rejected with the set
unchanged. -/
def bp_add (bps : List Nat) (a : Nat) : List Nat × BpResult :=
  if a ∈ bps then (bps, .alreadyExists)
  else if bps.length < 10 then (bps ++ [a], .added)
  else (bps, .tooMany)

/-- Monitor command `B a` (Arduino.ino lines 1380-1412): find the first index
holding `a`; if found, overwrite that slot with the last entry and shrink the
count (`breakpoints[j] = breakpoints[--num_breakpoints]`); otherwise report
not-found with the set unchanged. -/
def bp_remove (bps : List Nat) (a : Nat) : List Nat × BpResult :=
  let j := bps.indexOf a
  if j < bps.length then
    (((bps.set j (bps.getD (bps.length - 1) 0)).take (bps.length - 1)), .removed)
  else
    (bps, .notFound)

/-- Monitor command `B *`: `num_breakpoints = 0`. -/
def bp_remove_all (_bps : List Nat) : List Nat × BpResult :=
  ([], .removedAll)

inductive BpOp
  | add (a : Nat)
  | remove (a : Nat)
  | removeAll
  deriving DecidableEq, Repr

def bp_step (bps : List Nat) : BpOp → List Nat × BpResult
  | .add a => bp_add bps a
  | .remove a => bp_remove bps a
  | .removeAll => bp_remove_all bps

/-- Fold a sequence of breakpoint commands over the in-memory set. -/
def bp_run (bps : List Nat) (ops : List BpOp) : List Nat :=
  ops.foldl (fun s op => (bp_step s op).fst) bps

/-- The representation invariant of the breakpoint set. -/
def BpInv (bps : List Nat) : Prop := bps.length ≤ 10 ∧ bps.Nodup

theorem nodup_set_of_not_mem (l : List Nat) (j : Nat) (v : Nat)
    (hl : l.Nodup) (hv : v ∉ l) : (l.set j v).Nodup := by
  induction l generalizing j with
  | nil => simp
  | cons x xs ih =>
    cases j with
    | zero =>
      simp only [List.set]
      exact List.nodup_cons.mpr ⟨fun h => hv (List.mem_cons_of_mem _ h),
        (List.nodup_cons.mp hl).2⟩
    | succ j' =>
      simp only [List.set]
      refine List.nodup_cons.mpr ⟨?_, ih j' (List.nodup_cons.mp hl).2
        (fun h => hv (List.mem_cons_of_mem _ h))⟩
      intro hx
      rcases List.mem_or_eq_of_mem_set hx with h | rfl
      · exact (List.nodup_cons.mp hl).1 h
      · exact hv (List.mem_cons_self _ _)

theorem take_set_comm (l : List Nat) (j : Nat) (v : Nat) (m : Nat) :
    (l.set j v).take m = (l.take m).set j v := by
  induction l generalizing j m with
  | nil => simp
  | cons x xs ih =>
    cases j with
    | zero =>
      cases m with
      | zero => simp
      | succ m' => simp [List.set, List.take]
    | succ j' =>
      cases m with
      | zero => simp
      | succ m' => simp [List.set, List.take, ih]

theorem bp_remove_nodup (bps : List Nat) (a : Nat) (h : BpInv bps) :
    BpInv (bp_remove bps a).fst := by
  rcases h with ⟨hlen, hnd⟩
  rw [bp_remove]
  by_cases hj : bps.indexOf a < bps.length
  · simp only [hj, if_pos, List.length_take]
    constructor
    · simp only [List.length_take, List.length_set]
      omega
    · rw [take_set_comm]
      have htake : (bps.take (bps.length - 1)).Nodup :=
        hnd.sublist (List.take_sublist _ _)
      apply nodup_set_of_not_mem _ _ _ htake
      -- the last element does not occur among the earlier elements
      intro hmem
      have hpos : 1 ≤ bps.length := by omega
      rw [List.getD_eq_getElem bps 0 (by omega)] at hmem
      rw [List.mem_iff_getElem] at hmem
      rcases hmem with ⟨k, hk, hkeq⟩
      simp only [List.length_take] at hk
      rw [List.getElem_take] at hkeq
      have hklt : k < bps.length := by omega
      have := (List.Nodup.getElem_inj_iff hnd).mp hkeq
      omega
  · simpa [hj] using ⟨hlen, hnd⟩

theorem bp_step_inv (bps : List Nat) (op : BpOp) (h : BpInv bps) :
    BpInv (bp_step bps op).fst := by
  cases op with
  | add a =>
    rcases h with ⟨hlen, hnd⟩
    rw [bp_step, bp_add]
    by_cases hmem : a ∈ bps
    · simpa [hmem] using ⟨hlen, hnd⟩
    · by_cases hfull : bps.length < 10
      · simp only [hmem, if_neg, if_pos hfull, not_false_iff]
        exact ⟨by simp; omega, by simp [List.nodup_append, hnd, hmem]⟩
      · simpa [hmem, hfull] using ⟨hlen, hnd⟩
  | remove a => exact bp_remove_nodup bps a h
  | removeAll => exact ⟨by simp [bp_step, bp_remove_all], by simp [bp_step, bp_remove_all]⟩

/-- **C5.** Starting from any valid breakpoint set, every sequence of add /
remove / remove-all commands keeps the set at no more than 10 entries with no
duplicates; adding an 11th distinct value is rejected with the capacity error
and leaves the set unchanged; adding an existing value is rejected as already
existing and leaves the set unchanged; removing an absent value reports
not-found and leaves the set unchanged. -/
theorem breakpoint_set_invariant (s : List Nat) (h : BpInv s) :
    (∀ ops : List BpOp, BpInv (bp_run s ops)) ∧
    (∀ a, a ∉ s → s.length = 10 → bp_add s a = (s, .tooMany)) ∧
    (∀ a, a ∈ s → bp_add s a = (s, .alreadyExists)) ∧
    (∀ a, a ∉ s → bp_remove s a = (s, .notFound)) := by
  refine ⟨?_, ?_, ?_, ?_⟩
  · intro ops
    induction ops generalizing s with
    | nil => exact h
    | cons op ops ih => exact ih _ (bp_step_inv s op h)
  · intro a hmem hfull
    rw [bp_add, if_neg hmem, if_neg (by omega)]
  · intro a hmem
    rw [bp_add, if_pos hmem]
  · intro a hmem
    have hidx : s.indexOf a = s.length := List.indexOf_eq_length.mpr hmem
    simp [bp_remove, hidx]

/-- Witness for C5 at concrete inputs. -/
theorem breakpoint_set_invariant_witness :
    BpInv (bp_run [1, 2, 3] [.add 4, .remove 2, .add 1, .removeAll, .add 9]) ∧
    bp_add [0, 1, 2, 3, 4, 5, 6, 7, 8, 9] 12 = ([0, 1, 2, 3, 4, 5, 6, 7, 8, 9], .tooMany) ∧
    bp_add [1, 2, 3] 2 = ([1, 2, 3], .alreadyExists) ∧
    bp_remove [1, 2, 3] 7 = ([1, 2, 3], .notFound) := by
  have h3 : BpInv [1, 2, 3] := ⟨by norm_num, by norm_num⟩
  have h10 : BpInv [0, 1, 2, 3, 4, 5, 6, 7, 8, 9] := ⟨by norm_num, by norm_num⟩
  exact ⟨(breakpoint_set_invariant [1, 2, 3] h3).1 _,
    (breakpoint_set_invariant [0, 1, 2, 3, 4, 5, 6, 7, 8, 9] h10).2.1 12 (by norm_num) (by norm_num),
    (breakpoint_set_invariant [1, 2, 3] h3).2.2.1 2 (by norm_num),
    (breakpoint_set_invariant [1, 2, 3] h3).2.2.2 7 (by norm_num)⟩

/-! ## Execution-control engine (`run`, Arduino.ino lines 1152-1264)

`run` is a polling loop over the external bus: each iteration reads the
program counter during the first bus cycle, checks the breakpoint set (skipped
on the first iteration), polls the serial-activity line, reads the opcode on
the second cycle, and stops on the halt opcode.  We model the externally
observed bus values of one iteration as a `StepObs` and the loop as a
recursion over a finite list of observations; an exhausted list means the
machine is still running. -/

structure StepObs where
  pc : Nat           -- bus value during the fetch cycle
  serialLow : Bool   -- (PIND & 0x01)==0 at the serial poll of this iteration
  opcode : Nat       -- bus value during the second cycle
  deriving DecidableEq, Repr

inductive RunStop
  | limit       -- ++i <= num_instructions failed
  | breakpoint  -- pc matched a breakpoint entry
  | serial      -- serial activity detected
  | halt        -- opcode equalled the halt opcode
  | running     -- observations exhausted with the loop still going
  deriving DecidableEq, Repr

structure RunExit where
  stop : RunStop
  opcode : Nat   -- value of the C `opcode` variable when the loop exits
  steps : Nat    -- completed loop iterations
  deriving DecidableEq, Repr

def hlt_opcode : Nat := 0xF0

/-- The loop guard `++i <= num_instructions`: the byte-typed counter is
incremented mod 256 and then compared, as a (promoted) integer, with
`num_instructions`. -/
def loop_continue (i : Nat) (n : Int) : Prop :=
  (((i + 1) % 256 : Nat) : Int) ≤ n

instance (i : Nat) (n : Int) : Decidable (loop_continue i n) := by
  unfold loop_continue
  infer_instance

theorem loop_continue_of_ge (i : Nat) (n : Int) (hn : 256 ≤ n) : loop_continue i n := by
  unfold loop_continue
  have : (i + 1) % 256 < 256 := Nat.mod_lt _ (by norm_num)
  omega

/-- The `while( ++i <= num_instructions )` loop of `run`.  `opc` is the current
value of the `opcode` variable (uninitialized at entry, so passed in by the
caller of the model); `steps` counts completed iterations. -/
def run_loop (n : Int) (bps : List Nat) : List StepObs → Nat → Bool → Nat → Nat → RunExit
  | [], i, _, opc, steps =>
      if loop_continue i n then ⟨.running, opc, steps⟩
      else ⟨.limit, opc, steps⟩
  | o :: rest, i, first, opc, steps =>
      if loop_continue i n then
        if first = false ∧ o.pc % 256 ∈ bps then ⟨.breakpoint, opc, steps⟩
        else if o.serialLow then ⟨.serial, opc, steps⟩
        else if o.opcode % 256 = hlt_opcode then ⟨.halt, o.opcode % 256, steps⟩
        else run_loop n bps rest ((i + 1) % 256) false (o.opcode % 256) (steps + 1)
      else ⟨.limit, opc, steps⟩

/-- `if( num_instructions<0 ) num_instructions = 32767;` (line 1162). -/
def run_cap (num_instructions : Int) : Int :=
  if num_instructions < 0 then 32767 else num_instructions

/-- The value `run` returns to its caller (lines 1248-1264): `false` if the
serial line shows pending input at exit, `false` if the `opcode` variable holds
the halt opcode, `true` otherwise. -/
def run_return (endSerialLow : Bool) (opc : Nat) : Bool :=
  if endSerialLow then false
  else if opc = hlt_opcode then false
  else true

/-- Whole `run` call: the loop followed by the epilogue.  The second component
is `none` when the loop never exits within the supplied observations. -/
def run (num_instructions : Int) (bps : List Nat) (obs : List StepObs) (opc0 : Nat)
    (endSerialLow : Bool) : RunExit × Option Bool :=
  let ex := run_loop (run_cap num_instructions) bps obs 0 true opc0 0
  (ex, if ex.stop = .running then none else some (run_return endSerialLow ex.opcode))

/-- An observation that triggers none of the three stop conditions. -/
def benign (bps : List Nat) (o : StepObs) : Prop :=
  o.pc % 256 ∉ bps ∧ o.serialLow = false ∧ o.opcode % 256 ≠ hlt_opcode

instance (bps : List Nat) (o : StepObs) : Decidable (benign bps o) := by
  unfold benign
  infer_instance

/-- Because the loop counter is a byte (always < 256), any limit of at least
256 never terminates the loop: with only benign observations the machine is
still running after every one of them, no matter how many. -/
theorem run_loop_no_cap (n : Int) (hn : 256 ≤ n) (bps : List Nat) (obs : List StepObs)
    (hb : ∀ o ∈ obs, benign bps o) (i : Nat) (first : Bool) (opc steps : Nat) :
    (run_loop n bps obs i first opc steps).stop = .running ∧
    (run_loop n bps obs i first opc steps).steps = steps + obs.length := by
  induction obs generalizing i first opc steps with
  | nil =>
    rw [run_loop, if_pos (loop_continue_of_ge i n hn)]
    exact ⟨rfl, rfl⟩
  | cons o rest ih =>
    rcases hb o (List.mem_cons_self _ _) with ⟨hpc, hser, hop⟩
    rw [run_loop, if_pos (loop_continue_of_ge i n hn),
      if_neg (fun h => hpc h.2), hser, if_neg (by simp), if_neg hop]
    have := ih (fun o ho => hb o (List.mem_cons_of_mem _ ho)) ((i + 1) % 256) false
      (o.opcode % 256) (steps + 1)
    refine ⟨this.1, ?_⟩
    rw [this.2, List.length_cons]
    omega

/-- **C3** counterexample.  `run(-1)` installs the "cap" 32767, yet a run over
32768 benign instructions is still running afterwards: the byte-typed loop
counter wraps below any value of `num_instructions` that is at least 256, so
the count of executed instructions is not capped at the installed bound. -/
theorem run_negative_exceeds_cap :
    run_cap (-1) = 32767 ∧
    (run_loop (run_cap (-1)) [] (List.replicate 32768 ⟨0, false, 0⟩) 0 true 0 0).stop
      = .running ∧
    (run_loop (run_cap (-1)) [] (List.replicate 32768 ⟨0, false, 0⟩) 0 true 0 0).steps
      = 32768 := by
  have hcap : run_cap (-1) = 32767 := rfl
  have h := run_loop_no_cap 32767 (by norm_num) [] (List.replicate 32768 ⟨0, false, 0⟩)
    (by
      intro o ho
      rw [List.eq_of_mem_replicate ho]
      exact ⟨by simp, rfl, by simp [hlt_opcode]⟩)
    0 true 0 0
  rw [hcap]
  refine ⟨rfl, h.1, ?_⟩
  rw [h.2, List.length_replicate]

/-- **C3** (amended).  A negative `max_instructions` is replaced by 32767, but
the byte-typed step counter wraps below that value, so the limit never fires:
the run is unbounded and stops only at a breakpoint, the halt opcode, or
serial activity, each of which still stops it at any point of the run. -/
theorem run_negative_unbounded (num : Int) (hnum : num < 0)
    (bps : List Nat) (obs : List StepObs) (hb : ∀ o ∈ obs, benign bps o)
    (i : Nat) (first : Bool) (opc steps : Nat) (o : StepObs) (rest : List StepObs) :
    run_cap num = 32767 ∧
    (run_loop (run_cap num) bps obs i first opc steps).stop = .running ∧
    (run_loop (run_cap num) bps obs i first opc steps).steps = steps + obs.length ∧
    (first = false ∧ o.pc % 256 ∈ bps →
      run_loop (run_cap num) bps (o :: rest) i first opc steps = ⟨.breakpoint, opc, steps⟩) ∧
    (¬(first = false ∧ o.pc % 256 ∈ bps) → o.serialLow = true →
      run_loop (run_cap num) bps (o :: rest) i first opc steps = ⟨.serial, opc, steps⟩) ∧
    (¬(first = false ∧ o.pc % 256 ∈ bps) → o.serialLow = false → o.opcode % 256 = hlt_opcode →
      run_loop (run_cap num) bps (o :: rest) i first opc steps
        = ⟨.halt, hlt_opcode, steps⟩) := by
  have hcap : run_cap num = 32767 := by simp [run_cap, hnum]
  have hcond : loop_continue i (32767 : Int) := loop_continue_of_ge i _ (by norm_num)
  have hnc := run_loop_no_cap 32767 (by norm_num) bps obs hb i first opc steps
  rw [hcap]
  refine ⟨rfl, hnc.1, hnc.2, ?_, ?_, ?_⟩
  · intro hbp
    rw [run_loop, if_pos hcond, if_pos hbp]
  · intro hnbp hser
    rw [run_loop, if_pos hcond, if_neg hnbp, hser, if_pos rfl]
  · intro hnbp hser hhlt
    rw [run_loop, if_pos hcond, if_neg hnbp, hser, if_neg (by simp), if_pos hhlt, hhlt]

/-- Witness for C3 (amended) at concrete inputs. -/
theorem run_negative_unbounded_witness :
    run_cap (-1) = 32767 ∧
    (run_loop (run_cap (-1)) [3] [⟨1, false, 0x50⟩, ⟨2, false, 0x60⟩] 0 false 0 0).stop
      = .running ∧
    (run_loop (run_cap (-1)) [3] [⟨1, false, 0x50⟩, ⟨2, false, 0x60⟩] 0 false 0 0).steps
      = 0 + ([⟨1, false, 0x50⟩, ⟨2, false, 0x60⟩] : List StepObs).length ∧
    ((false = false ∧ 3 % 256 ∈ [3]) →
      run_loop (run_cap (-1)) [3] (⟨3, false, 0x50⟩ :: []) 0 false 0 0
        = ⟨.breakpoint, 0, 0⟩) ∧
    (¬(false = false ∧ (⟨3, false, 0x50⟩ : StepObs).pc % 256 ∈ [3]) →
      (⟨3, false, 0x50⟩ : StepObs).serialLow = true →
      run_loop (run_cap (-1)) [3] (⟨3, false, 0x50⟩ :: []) 0 false 0 0 = ⟨.serial, 0, 0⟩) ∧
    (¬(false = false ∧ (⟨3, false, 0x50⟩ : StepObs).pc % 256 ∈ [3]) →
      (⟨3, false, 0x50⟩ : StepObs).serialLow = false →
      (⟨3, false, 0x50⟩ : StepObs).opcode % 256 = hlt_opcode →
      run_loop (run_cap (-1)) [3] (⟨3, false, 0x50⟩ :: []) 0 false 0 0
        = ⟨.halt, hlt_opcode, 0⟩) :=
  run_negative_unbounded (-1) (by norm_num) [3] [⟨1, false, 0x50⟩, ⟨2, false, 0x60⟩]
    (by intro o ho; fin_cases ho <;> exact ⟨by decide, rfl, by decide⟩)
    0 false 0 0 ⟨3, false, 0x50⟩ []

theorem run_loop_halt_opcode (n : Int) (bps : List Nat) (obs : List StepObs)
    (i : Nat) (first : Bool) (opc steps : Nat) :
    ((run_loop n bps obs i first opc steps).stop = .halt →
      (run_loop n bps obs i first opc steps).opcode = hlt_opcode) ∧
    (opc ≠ hlt_opcode → (run_loop n bps obs i first opc steps).stop ≠ .halt →
      (run_loop n bps obs i first opc steps).opcode ≠ hlt_opcode) := by
  induction obs generalizing i first opc steps with
  | nil =>
    rw [run_loop]
    by_cases hc : loop_continue i n
    · rw [if_pos hc]
      exact ⟨fun h => absurd h (by simp), fun h0 _ => h0⟩
    · rw [if_neg hc]
      exact ⟨fun h => absurd h (by simp), fun h0 _ => h0⟩
  | cons o rest ih =>
    rw [run_loop]
    by_cases hc : loop_continue i n
    · rw [if_pos hc]
      by_cases hbp : first = false ∧ o.pc % 256 ∈ bps
      · rw [if_pos hbp]
        exact ⟨fun h => absurd h (by simp), fun h0 _ => h0⟩
      · rw [if_neg hbp]
        by_cases hser : o.serialLow = true
        · rw [hser, if_pos rfl]
          exact ⟨fun h => absurd h (by simp), fun h0 _ => h0⟩
        · simp only [Bool.not_eq_true] at hser
          rw [hser, if_neg (by simp)]
          by_cases hhlt : o.opcode % 256 = hlt_opcode
          · rw [if_pos hhlt]
            exact ⟨fun _ => hhlt, fun _ h => absurd rfl h⟩
          · rw [if_neg hhlt]
            exact ⟨(ih _ _ _ _).1, fun _ => (ih _ _ _ _).2 hhlt⟩
    · rw [if_neg hc]
      exact ⟨fun h => absurd h (by simp), fun h0 _ => h0⟩

/-- **C4** counterexample.  Two concrete executions that stop for different
reasons — one aborted by host-serial activity, one stopped at the halt
opcode — both return `false` to the caller: the three stop reasons are not
reported distinctly through `run`'s (two-valued) return value. -/
theorem run_serial_halt_same_return :
    (run 10 [] [⟨0, true, 0x50⟩] 0 true).1.stop = .serial ∧
    (run 10 [] [⟨0, false, 0xF0⟩] 0 false).1.stop = .halt ∧
    (run 10 [] [⟨0, true, 0x50⟩] 0 true).2 = some false ∧
    (run 10 [] [⟨0, false, 0xF0⟩] 0 false).2 = some false := by
  refine ⟨by decide, by decide, by decide, by decide⟩

/-- **C4** (amended).  `run` reports its outcome through a two-valued return:
both a host-input stop (serial line still showing pending input at exit) and a
halt stop return `false` — they are distinguished only by a printed message —
while a limit or breakpoint stop (with no pending input at exit) returns
`true`. -/
theorem run_return_outcomes (n : Int) (bps : List Nat) (obs : List StepObs) (opc0 : Nat)
    (h0 : opc0 ≠ hlt_opcode) :
    ((run_loop n bps obs 0 true opc0 0).stop = .serial →
      run_return true (run_loop n bps obs 0 true opc0 0).opcode = false) ∧
    ((run_loop n bps obs 0 true opc0 0).stop = .halt →
      run_return false (run_loop n bps obs 0 true opc0 0).opcode = false) ∧
    ((run_loop n bps obs 0 true opc0 0).stop = .breakpoint ∨
        (run_loop n bps obs 0 true opc0 0).stop = .limit →
      run_return false (run_loop n bps obs 0 true opc0 0).opcode = true) := by
  refine ⟨fun _ => rfl, fun hhalt => ?_, fun hother => ?_⟩
  · rw [(run_loop_halt_opcode n bps obs 0 true opc0 0).1 hhalt]
    rfl
  · have hne : (run_loop n bps obs 0 true opc0 0).stop ≠ .halt := by
      rcases hother with h | h <;> rw [h] <;> simp
    have := (run_loop_halt_opcode n bps obs 0 true opc0 0).2 h0 hne
    simp [run_return, this]

/-- Witness for C4 (amended) at a concrete input. -/
theorem run_return_outcomes_witness :
    ((run_loop 10 [4] [⟨0, false, 0x50⟩, ⟨4, false, 0x60⟩] 0 true 0 0).stop = .serial →
      run_return true (run_loop 10 [4] [⟨0, false, 0x50⟩, ⟨4, false, 0x60⟩] 0 true 0 0).opcode
        = false) ∧
    ((run_loop 10 [4] [⟨0, false, 0x50⟩, ⟨4, false, 0x60⟩] 0 true 0 0).stop = .halt →
      run_return false (run_loop 10 [4] [⟨0, false, 0x50⟩, ⟨4, false, 0x60⟩] 0 true 0 0).opcode
        = false) ∧
    ((run_loop 10 [4] [⟨0, false, 0x50⟩, ⟨4, false, 0x60⟩] 0 true 0 0).stop = .breakpoint ∨
        (run_loop 10 [4] [⟨0, false, 0x50⟩, ⟨4, false, 0x60⟩] 0 true 0 0).stop = .limit →
      run_return false (run_loop 10 [4] [⟨0, false, 0x50⟩, ⟨4, false, 0x60⟩] 0 true 0 0).opcode
        = true) :=
  run_return_outcomes 10 [4] [⟨0, false, 0x50⟩, ⟨4, false, 0x60⟩] 0 (by decide)

/-! ## Character classification and the opcode table

The assembler and disassembler (Arduino.ino lines 612-1020) work on the raw
line buffer with the Arduino ctype macros; characters beyond the line are read
through the NUL terminator, modelled by `getC` returning `'\x00'` out of
bounds. -/

def getC (buf : List Char) (i : Nat) : Char := buf.getD i (Char.ofNat 0)

def isDigitC (c : Char) : Bool := 48 ≤ c.toNat && c.toNat ≤ 57

def isAlphaC (c : Char) : Bool :=
  (65 ≤ c.toNat && c.toNat ≤ 90) || (97 ≤ c.toNat && c.toNat ≤ 122)

def isAlphaNumC (c : Char) : Bool := isAlphaC c || isDigitC c

def isSpaceC (c : Char) : Bool := c.toNat == 32 || (9 ≤ c.toNat && c.toNat ≤ 13)

def toLowerC (c : Char) : Char :=
  if 65 ≤ c.toNat && c.toNat ≤ 90 then Char.ofNat (c.toNat + 32) else c

/-- `hex_char_to_byte` (lines 482-492): hex digit value, or failure (-1). -/
def hex_char_to_byte (c : Char) : Option Nat :=
  if 48 ≤ c.toNat && c.toNat ≤ 57 then some (c.toNat - 48)
  else if 97 ≤ c.toNat && c.toNat ≤ 102 then some (10 + (c.toNat - 97))
  else if 65 ≤ c.toNat && c.toNat ≤ 70 then some (10 + (c.toNat - 65))
  else none

/-- `parse_arg(buffer, len, i, value, force_hex)` (lines 668-705): `$`-prefixed
or forced 1-2 digit hex, else 1-3 digit decimal, accumulated into a `byte`
(mod 256).  Returns (success, final index, final value); on failure the
caller's `value` (`v0`) is untouched. -/
def parse_arg (buf : List Char) (len i0 v0 : Nat) (force_hex : Bool) :
    Bool × Nat × Nat :=
  if (i0 < len ∧ getC buf i0 = '$') ∨ force_hex = true then
    let i1 := if getC buf i0 = '$' then i0 + 1 else i0
    match (if i1 < len then hex_char_to_byte (getC buf i1) else none) with
    | some b =>
      let i2 := i1 + 1
      match (if i2 < len then hex_char_to_byte (getC buf i2) else none) with
      | some b2 => (true, i2 + 1, (b * 16 + b2) % 256)
      | none => (true, i2, b % 256)
    | none => (false, i1, v0)
  else if i0 < len ∧ isDigitC (getC buf i0) then
    let d1 := ((getC buf i0).toNat - 48) % 256
    if i0 + 1 < len ∧ isDigitC (getC buf (i0 + 1)) then
      let d2 := (d1 * 10 + ((getC buf (i0 + 1)).toNat - 48)) % 256
      if i0 + 2 < len ∧ isDigitC (getC buf (i0 + 2)) then
        (true, i0 + 3, (d2 * 10 + ((getC buf (i0 + 2)).toNat - 48)) % 256)
      else (true, i0 + 2, d2)
    else (true, i0 + 1, d1)
  else (false, i0, v0)

/-- One row of the opcode table (`struct opcodes_struct`, lines 49-55). -/
structure OpcodeEntry where
  mnemonic : List Char   -- 5 characters; index 4 = '#' marks an immediate form
  opcode : Nat
  num_cycles : Nat
  has_arg : Bool
  deriving DecidableEq, Repr

def default_entry : OpcodeEntry := ⟨[], 0, 0, false⟩

/-- `opcodes_4bit` (lines 63-85), including the two assembler-only
pseudo-opcodes `.OR` (0xFE) and `.BY` (0xFF). -/
def opcodes_4bit : List OpcodeEntry :=
  [⟨"NOP  ".toList, 0x00, 3, false⟩,
   ⟨"LDA  ".toList, 0x10, 3, true⟩,
   ⟨"ADD  ".toList, 0x20, 3, true⟩,
   ⟨"SUB  ".toList, 0x30, 3, true⟩,
   ⟨"STA  ".toList, 0x40, 3, true⟩,
   ⟨"LDI  ".toList, 0x50, 3, true⟩,
   ⟨"JMP  ".toList, 0x60, 3, true⟩,
   ⟨"JC   ".toList, 0x70, 3, true⟩,
   ⟨"JZ   ".toList, 0x80, 3, true⟩,
   ⟨"DSI  ".toList, 0x90, 3, true⟩,
   ⟨"INC  ".toList, 0xA0, 3, true⟩,
   ⟨"DEC  ".toList, 0xB0, 3, true⟩,
   ⟨"LDB  ".toList, 0xC0, 3, true⟩,
   ⟨"DSP  ".toList, 0xD0, 3, true⟩,
   ⟨"OUT  ".toList, 0xE0, 3, false⟩,
   ⟨"HLT  ".toList, 0xF0, 3, false⟩,
   ⟨".OR  ".toList, 0xFE, 0, true⟩,
   ⟨".BY  ".toList, 0xFF, 0, true⟩]

/-! ## Disassembler (lines 612-627) -/

def hexDigit (n : Nat) : Char :=
  if n < 10 then Char.ofNat (48 + n) else Char.ofNat (97 + (n - 10))

/-- `dec2hex` (lines 263-268): `sprintf("%02x", v)` — two lowercase hex digits,
zero-padded. -/
def dec2hex (v : Nat) : List Char := [hexDigit (v % 256 / 16), hexDigit (v % 16)]

/-- The mnemonic-and-argument text printed for one byte by `disassemble`: the
high nibble selects the table row; if its has-argument flag is set, the low
nibble is printed with `dec2hex`. -/
def disassemble_text (b : Nat) : List Char :=
  let e := opcodes_4bit.getD (b % 256 / 16) default_entry
  e.mnemonic ++ (if e.has_arg then dec2hex (b % 16) else [])

/-! ## Assembler (lines 631-1020) -/

/-- Fuel-indexed scanning loop; `len - i` fuel makes it total. -/
def scan_while_aux (p : Char → Bool) (buf : List Char) (len : Nat) : Nat → Nat → Nat
  | 0, i => i
  | fuel + 1, i =>
    if i < len ∧ p (getC buf i) = true then scan_while_aux p buf len fuel (i + 1) else i

/-- Advance `i` while within the line and the character satisfies `p`. -/
def scan_while (p : Char → Bool) (buf : List Char) (len : Nat) (i : Nat) : Nat :=
  scan_while_aux p buf len (len - i) i

theorem scan_while_aux_stop (p : Char → Bool) (buf : List Char) (len : Nat)
    (fuel i : Nat) (h : ¬(i < len ∧ p (getC buf i) = true)) :
    scan_while_aux p buf len fuel i = i := by
  cases fuel with
  | zero => rfl
  | succ f => exact if_neg h

/-- The loop equation of `scan_while`. -/
theorem scan_while_eq (p : Char → Bool) (buf : List Char) (len i : Nat) :
    scan_while p buf len i =
      if i < len ∧ p (getC buf i) = true then scan_while p buf len (i + 1) else i := by
  by_cases h : i < len ∧ p (getC buf i) = true
  · rw [if_pos h]
    unfold scan_while
    have hk : len - i = (len - (i + 1)) + 1 := by omega
    rw [hk]
    rw [scan_while_aux]
    rw [if_pos h]
  · rw [if_neg h]
    exact scan_while_aux_stop p buf len _ i h

/-- `struct label_struct` (lines 631-636): 3-character key, resolved address
(-1 while undefined), recorded forward-reference sites. -/
structure LabelEntry where
  label : List Char
  loc : Int
  forward : List Nat
  deriving DecidableEq, Repr

def default_label : LabelEntry := ⟨[], -1, []⟩

/-- The 3-character space-padded key built in `find_label`'s `lbuf`
(lines 646-649) from the identifier at `buf[start..start+llen)`. -/
def labelKey (buf : List Char) (start llen : Nat) : List Char :=
  [getC buf start,
   if 1 < llen then getC buf (start + 1) else ' ',
   if 2 < llen then getC buf (start + 2) else ' ']

/-- The scan of lines 651-653 keeps the **last** matching table index. -/
def find_label_idx : List LabelEntry → List Char → Option Nat
  | [], _ => none
  | e :: es, key =>
    match find_label_idx es key with
    | some j => some (j + 1)
    | none => if e.label = key then some 0 else none

/-- `find_label(lbl, llen)` (lines 642-665): look the key up; if absent and the
table has room, append a fresh undefined entry; `none` models the NULL return
when the table is full. -/
def find_label (labels : List LabelEntry) (buf : List Char) (start llen : Nat) :
    Option (Nat × List LabelEntry) :=
  let key := labelKey buf start llen
  match find_label_idx labels key with
  | some j => some (j, labels)
  | none =>
    if labels.length < 16 then some (labels.length, labels ++ [⟨key, -1, []⟩])
    else none

/-- The patch applied to a forward-reference byte when its label is defined at
address `a` (line 804): `b = (b & 0xF0) | ((a+(b&0x0F)) & 0x0F)`. -/
def patch_byte (a b : Nat) : Nat := (b % 256 / 16) * 16 + (a + b % 16) % 16

/-- The patch loop of lines 798-809: read, patch and write back each recorded
site in order. -/
def apply_patches (ram : Ram) (a : Nat) : List Nat → Ram
  | [] => ram
  | t :: rest => apply_patches (ram.store t (patch_byte a (ram (t % 256)))) a rest

/-- Assembly state: current write address `a`, block start `addr` (reassigned
by `.OR`), label table, target RAM, and a log of (label key, site) patch
events for bookkeeping. -/
structure AsmState where
  a : Nat
  addr : Nat
  labels : List LabelEntry
  ram : Ram
  patch_log : List (List Char × Nat)

/-- The label field of a line (lines 778-823): a leading identifier defines a
label — on first definition every recorded forward site is patched with the
current address and the entry is resolved; duplicates, a full table, and an
invalid leading character abort the line. -/
def label_phase (s : AsmState) (buf : List Char) (len : Nat) : Bool × Nat × AsmState :=
  if isAlphaC (getC buf 0) then
    let i1 := scan_while isAlphaNumC buf len 0
    match find_label s.labels buf 0 i1 with
    | none => (false, i1, s)
    | some (j, labels1) =>
      let e := labels1.getD j default_label
      if 0 ≤ e.loc then (false, i1, { s with labels := labels1 })
      else
        (true, i1,
          { s with
            labels := labels1.set j ⟨e.label, (s.a : Int), []⟩,
            ram := apply_patches s.ram s.a e.forward,
            patch_log := s.patch_log ++ e.forward.map (fun t => (e.label, t)) })
  else if isSpaceC (getC buf 0) = false then
    (false, scan_while (fun c => ! isSpaceC c) buf len 0, s)
  else
    (true, 0, s)

/-- The optional `+`/`-` offset after a label reference (lines 912-942): it
adjusts only the success flag and the argument value, never the state. -/
def plus_minus (buf : List Char) (len i1 : Nat) (ok1 : Bool) (arg1 : Nat) : Bool × Nat :=
  if getC buf i1 = '+' ∨ getC buf i1 = '-' then
    let issub := getC buf i1 = '-'
    let i3 := scan_while isSpaceC buf len (i1 + 1)
    if i3 < len then
      match parse_arg buf len i3 0 false with
      | (true, _, addval) =>
        let addval2 := if issub then (256 - addval % 256) % 256 else addval % 256
        (ok1, (arg1 + addval2) % 256)
      | (false, _, _) => (false, arg1)
    else (false, arg1)
  else (ok1, arg1)

/-- The argument field of an argument-taking opcode (lines 876-957): a leading
letter is a label reference (recording a forward site when unresolved, with
optional `+`/`-` offset arithmetic); otherwise `parse_arg`. -/
def arg_phase (s : AsmState) (buf : List Char) (len i : Nat) : Bool × Nat × AsmState :=
  if i < len then
    if isAlphaC (getC buf i) then
      let i1 := scan_while isAlphaNumC buf len i
      let r1 : Bool × Nat × AsmState :=
        match find_label s.labels buf i (i1 - i) with
        | none => (false, 0, s)
        | some (j, labels1) =>
          let e := labels1.getD j default_label
          if e.loc < 0 then
            if e.forward.length < 16 then
              (true, 0,
                { s with labels := labels1.set j ⟨e.label, e.loc, e.forward ++ [s.a % 256]⟩ })
            else (false, 0, { s with labels := labels1 })
          else (true, e.loc.toNat % 256, { s with labels := labels1 })
      ((plus_minus buf len i1 r1.1 r1.2.1).1, (plus_minus buf len i1 r1.1 r1.2.1).2, r1.2.2)
    else
      match parse_arg buf len i 0 false with
      | (true, _, v) => (true, v % 256, s)
      | (false, _, _) => (false, 0, s)
  else (false, 0, s)

/-- Case-insensitive 3-character mnemonic match plus the immediate-marker
agreement of line 850-851 (`mnemonic[4]=='#'`). -/
def mnem_matches (e : OpcodeEntry) (buf : List Char) (mstart : Nat) (isimm : Bool) : Bool :=
  (((buf.drop mstart).take 3).map toLowerC == (e.mnemonic.take 3).map toLowerC) &&
  (isimm == (e.mnemonic.getD 4 ' ' == '#'))

/-- The opcode scan of lines 849-860: first matching row, where a row whose
opcode needs an argument matches only when argument text is available. -/
def find_opcode (buf : List Char) (mstart : Nat) (isimm argAvail : Bool) :
    List OpcodeEntry → Nat → Option Nat
  | [], _ => none
  | e :: es, k =>
    if mnem_matches e buf mstart isimm then
      if (! e.has_arg) || argAvail then some k
      else find_opcode buf mstart isimm argAvail es (k + 1)
    else find_opcode buf mstart isimm argAvail es (k + 1)

/-- Byte emission (lines 972-999): `.BY` stores the literal, `.OR` moves the
write address, a real opcode stores `opcode | (arg & 0x0F)` (4-bit mode). -/
def emit (s : AsmState) (k arg : Nat) : AsmState :=
  let e := opcodes_4bit.getD k default_entry
  if e.opcode = 0xFF then { s with ram := s.ram.store s.a arg, a := s.a + 1 }
  else if e.opcode = 0xFE then { s with addr := arg, a := arg }
  else { s with ram := s.ram.store s.a (e.opcode ||| arg % 16), a := s.a + 1 }

/-- Mnemonic and argument fields after the label field (lines 825-999). -/
def instr_phase (s : AsmState) (buf : List Char) (len i1 : Nat) : AsmState :=
  let i2 := scan_while isSpaceC buf len i1
  if i2 < len then
    if i2 + 3 ≤ len then
      let i4 := scan_while isSpaceC buf len (i2 + 3)
      let imm : Bool := decide (i4 < len) && (getC buf i4 == '#')
      let i5 := if imm then i4 + 1 else i4
      match find_opcode buf i2 imm (decide (i5 < len)) opcodes_4bit 0 with
      | none => s
      | some k =>
        if (opcodes_4bit.getD k default_entry).has_arg then
          match arg_phase s buf len i5 with
          | (true, arg, s1) => emit s1 k arg
          | (false, _, s1) => s1
        else emit s k 0
    else s
  else s

/-- Process one entered line: the editing loop appends `' '` and a NUL
terminator to the received characters (lines 766-770), then the label,
mnemonic and argument fields run in order; a line that fails leaves the
address unchanged (its label-table side effects are kept, as in the source). -/
def process_line (s : AsmState) (line : List Char) : AsmState :=
  let buf := line ++ [' ']
  let len := line.length + 1
  match label_phase s buf len with
  | (false, _, s1) => s1
  | (true, i1, s1) => instr_phase s1 buf len i1

/-- A label name as printed in the undefined-label report (lines 1013-1014):
the key's characters up to the first space. -/
def trunc_name (key : List Char) : List Char := key.takeWhile (fun c => c ≠ ' ')

/-- `assemble(addr)` over a list of entered lines (lines 708-1020): fold the
line processor from a fresh label table, then — only when the final write
address exceeds the (possibly `.OR`-moved) block start — report the labels
still unresolved. -/
def assemble (ram : Ram) (addr : Nat) (lines : List (List Char)) :
    AsmState × List (List Char) :=
  let s := lines.foldl process_line ⟨addr, addr, [], ram, []⟩
  (s,
   if s.addr < s.a then
     (s.labels.filter fun e => e.loc < 0).map fun e => trunc_name e.label
   else [])

/-! ## Disassembler output format (C8) and decode/encode round trip (C7) -/

set_option maxRecDepth 8192

/-- **C8** counterexample.  The low nibble of an argument-taking opcode is
printed by `dec2hex`, i.e. `sprintf("%02x", …)`: two zero-padded hex digits,
not one.  Disassembling 0x55 prints the mnemonic text `LDI  05`, not the
claimed `LDI  5`. -/
theorem disassemble_not_one_digit :
    disassemble_text 0x55 = "LDI  05".toList ∧
    disassemble_text 0x55 ≠ "LDI  5".toList := by
  exact ⟨by decide, by decide⟩

/-- **C8** (amended).  For every byte whose high-nibble descriptor has the
has-argument flag set, the disassembler renders the low nibble as a
**two-digit zero-padded** hex argument appended to the mnemonic (and prints
the bare mnemonic when the flag is clear); in particular 0x55 prints
`LDI  05` and 0xE0 prints `OUT  `. -/
theorem disassemble_two_digit_argument :
    (∀ b < 256, (opcodes_4bit.getD (b % 256 / 16) default_entry).has_arg = true →
      disassemble_text b
        = (opcodes_4bit.getD (b % 256 / 16) default_entry).mnemonic
            ++ ['0', hexDigit (b % 16)]) ∧
    (∀ b < 256, (opcodes_4bit.getD (b % 256 / 16) default_entry).has_arg = false →
      disassemble_text b = (opcodes_4bit.getD (b % 256 / 16) default_entry).mnemonic) ∧
    disassemble_text 0x55 = "LDI  05".toList ∧
    disassemble_text 0xE0 = "OUT  ".toList := by
  refine ⟨by decide, by decide, by decide, by decide⟩

/-- Witness for C8 (amended) at a concrete input. -/
theorem disassemble_two_digit_argument_witness :
    disassemble_text 0x55
      = (opcodes_4bit.getD (0x55 % 256 / 16) default_entry).mnemonic
          ++ ['0', hexDigit (0x55 % 16)] :=
  disassemble_two_digit_argument.1 0x55 (by norm_num) (by decide)

/-- Re-assembling the text the disassembler printed for byte `b`: the mnemonic
and argument are entered in the mnemonic field (one leading space — a letter
in column 0 would be read as a label definition) on a fresh assembly at
address 0; the result is the byte the assembler wrote there. -/
def reassembled_byte (b : Nat) : Nat :=
  (process_line ⟨0, 0, [], fun _ => 0, []⟩ (' ' :: disassemble_text b)).ram 0

/-- **C7** counterexample.  Disassembling 0x1A prints `LDA  0a`; re-assembling
that text yields 0x10, not 0x1A, because the printed argument is hex but a
bare argument is parsed as decimal (`0a` parses as 0, the `a` is ignored as
trailing text). -/
theorem reassemble_fails_on_hex_nibble :
    disassemble_text 0x1A = "LDA  0a".toList ∧
    (opcodes_4bit.getD (0x1A % 256 / 16) default_entry).has_arg = true ∧
    reassembled_byte 0x1A = 0x10 ∧ (0x10 : Nat) ≠ 0x1A := by
  refine ⟨by decide, by decide, by decide, by decide⟩

/-- **C7** (amended).  For all 16 opcode values the decode/encode round trip
reproduces the original byte exactly when the printed argument re-parses to
the low nibble: for argument-taking opcodes that is the case precisely when
the low nibble is a decimal digit (0-9), and for the no-argument opcodes when
the low nibble is 0 (no argument text is printed, so the encoder fills 0). -/
theorem reassemble_roundtrip :
    ∀ b < 256, ((opcodes_4bit.getD (b % 256 / 16) default_entry).has_arg = true ∧ b % 16 ≤ 9) ∨
        ((opcodes_4bit.getD (b % 256 / 16) default_entry).has_arg = false ∧ b % 16 = 0) →
      reassembled_byte b = b := by
  decide

/-- Witness for C7 (amended) at a concrete input. -/
theorem reassemble_roundtrip_witness : reassembled_byte 0x55 = 0x55 :=
  reassemble_roundtrip 0x55 (by norm_num) (Or.inl ⟨by decide, by norm_num⟩)

/-! ## Label lookup truncation (C10) -/

/-- **C10.** Label lookup keys on the first three characters only
(space-padded when the identifier is shorter): two identifiers whose padded
3-character prefixes agree resolve to the same label-table entry, whatever
their later characters, and this lookup is the one used both for label
definitions and for label references — concretely, defining `LOOPA` and then
referencing `LOOPB` resolves the reference to the `LOOPA` entry (one table
entry, jump byte 0x60 encoding its address 0, nothing undefined). -/
theorem find_label_truncates (labels : List LabelEntry)
    (buf1 buf2 : List Char) (s1 s2 l1 l2 : Nat)
    (h0 : getC buf1 s1 = getC buf2 s2)
    (h1 : (if 1 < l1 then getC buf1 (s1 + 1) else ' ')
        = (if 1 < l2 then getC buf2 (s2 + 1) else ' '))
    (h2 : (if 2 < l1 then getC buf1 (s1 + 2) else ' ')
        = (if 2 < l2 then getC buf2 (s2 + 2) else ' ')) :
    find_label labels buf1 s1 l1 = find_label labels buf2 s2 l2 ∧
    (assemble (fun _ => 0) 0 ["LOOPA".toList, " JMP LOOPB".toList]).1.ram 0 = 0x60 ∧
    (assemble (fun _ => 0) 0 ["LOOPA".toList, " JMP LOOPB".toList]).1.labels.length = 1 ∧
    (assemble (fun _ => 0) 0 ["LOOPA".toList, " JMP LOOPB".toList]).2 = [] := by
  have hkey : labelKey buf1 s1 l1 = labelKey buf2 s2 l2 := by
    simp only [labelKey, h0, h1, h2]
  refine ⟨?_, by decide, by decide, by decide⟩
  unfold find_label
  rw [hkey]

/-- Witness for C10 at concrete inputs. -/
theorem find_label_truncates_witness :
    find_label [] "LOOP".toList 0 4 = find_label [] "LOOPERS".toList 0 7 ∧
    (assemble (fun _ => 0) 0 ["LOOPA".toList, " JMP LOOPB".toList]).1.ram 0 = 0x60 ∧
    (assemble (fun _ => 0) 0 ["LOOPA".toList, " JMP LOOPB".toList]).1.labels.length = 1 ∧
    (assemble (fun _ => 0) 0 ["LOOPA".toList, " JMP LOOPB".toList]).2 = [] :=
  find_label_truncates [] "LOOP".toList "LOOPERS".toList 0 0 4 7
    (by decide) (by decide) (by decide)

/-! ## Forward-reference patching of label definitions (C2) -/

theorem patch_byte_lt (a b : Nat) : patch_byte a b < 256 := by
  unfold patch_byte
  have h1 : b % 256 / 16 ≤ 15 := by omega
  have h2 : (a + b % 16) % 16 < 16 := Nat.mod_lt _ (by norm_num)
  omega

theorem apply_patches_unchanged (fs : List Nat) (ram : Ram) (a x : Nat)
    (hx : ∀ t ∈ fs, x ≠ t % 256) :
    apply_patches ram a fs x = ram x := by
  induction fs generalizing ram with
  | nil => rfl
  | cons t rest ih =>
    rw [apply_patches, ih]
    · have := hx t (List.mem_cons_self _ _)
      simp [Ram.store, this]
    · exact fun u hu => hx u (List.mem_cons_of_mem _ hu)

/-- Each recorded site, patched exactly once: after the patch pass, a recorded
site holds its old byte with only the low nibble rewritten by the resolved
address. -/
theorem apply_patches_get (fs : List Nat) (ram : Ram) (a t : Nat)
    (hnd : fs.Nodup) (hlt : ∀ u ∈ fs, u < 256) (ht : t ∈ fs) :
    apply_patches ram a fs t = patch_byte a (ram t) := by
  induction fs generalizing ram with
  | nil => simp at ht
  | cons u rest ih =>
    have hu256 : u < 256 := hlt u (List.mem_cons_self _ _)
    have humod : u % 256 = u := Nat.mod_eq_of_lt hu256
    rcases List.mem_cons.mp ht with rfl | htr
    · rw [apply_patches, apply_patches_unchanged]
      · simp only [Ram.store, humod]
        rw [if_pos trivial, Nat.mod_eq_of_lt (patch_byte_lt _ _)]
      · intro v hv
        have hv256 : v < 256 := hlt v (List.mem_cons_of_mem _ hv)
        have : v % 256 = v := Nat.mod_eq_of_lt hv256
        rw [this]
        intro hcontra
        exact (List.nodup_cons.mp hnd).1 (hcontra ▸ hv)
    · have hne : t ≠ u := by
        intro hcontra
        exact (List.nodup_cons.mp hnd).1 (hcontra ▸ htr)
      have hih := ih (Ram.store ram u (patch_byte a (ram (u % 256))))
        (List.nodup_cons.mp hnd).2 (fun v hv => hlt v (List.mem_cons_of_mem _ hv)) htr
      rw [apply_patches, hih]
      have hst : Ram.store ram u (patch_byte a (ram (u % 256))) t = ram t := by
        simp only [Ram.store, humod]
        rw [if_neg hne]
      rw [hst]

/-- Scanning `ident ++ [' ']` with a predicate holding on all of `ident` but
not on `' '` stops exactly at the end of the identifier. -/
theorem scan_while_ident (p : Char → Bool) (ident : List Char)
    (hall : ∀ c ∈ ident, p c = true) (hsp : p ' ' = false) :
    ∀ k, k ≤ ident.length →
      scan_while p (ident ++ [' ']) (ident.length + 1) k = ident.length := by
  have H : ∀ n k, k ≤ ident.length → ident.length - k = n →
      scan_while p (ident ++ [' ']) (ident.length + 1) k = ident.length := by
    intro n
    induction n with
    | zero =>
      intro k hk h0
      have hkl : k = ident.length := by omega
      subst hkl
      rw [scan_while_eq, if_neg]
      rintro ⟨-, hp⟩
      have hg : getC (ident ++ [' ']) ident.length = ' ' := by
        unfold getC
        rw [List.getD_append_right _ _ _ _ (le_refl _)]
        simp
      rw [hg, hsp] at hp
      exact Bool.false_ne_true hp
    | succ n ih =>
      intro k hk hn
      have hklt : k < ident.length := by omega
      have hg : getC (ident ++ [' ']) k = ident.getD k ' ' := by
        unfold getC
        rw [List.getD_append _ _ _ _ hklt]
        rw [List.getD_eq_getElem _ _ hklt, List.getD_eq_getElem _ _ hklt]
      rw [scan_while_eq, if_pos]
      · exact ih (k + 1) (by omega) (by omega)
      · constructor
        · omega
        · rw [hg, List.getD_eq_getElem _ _ hklt]
          exact hall _ (ident.getElem_mem hklt)
  exact fun k hk => H (ident.length - k) k hk rfl

theorem find_label_idx_spec (labels : List LabelEntry) (key : List Char) (j : Nat)
    (h : find_label_idx labels key = some j) :
    j < labels.length ∧ (labels.getD j default_label).label = key := by
  induction labels generalizing j with
  | nil => simp [find_label_idx] at h
  | cons e es ih =>
    rw [find_label_idx] at h
    cases hrec : find_label_idx es key with
    | some j' =>
      rw [hrec] at h
      cases h
      have := ih j' hrec
      constructor
      · simpa using Nat.succ_lt_succ this.1
      · simpa using this.2
    | none =>
      rw [hrec] at h
      by_cases he : e.label = key
      · rw [if_pos he] at h
        cases h
        exact ⟨Nat.succ_pos _, he⟩
      · rw [if_neg he] at h
        cases h

/-- `find_label` only ever extends the table: existing entries survive. -/
theorem find_label_sub (labels : List LabelEntry) (buf : List Char) (start llen : Nat)
    (j : Nat) (labels' : List LabelEntry)
    (h : find_label labels buf start llen = some (j, labels')) :
    (∀ e ∈ labels, e ∈ labels') ∧ j < labels'.length ∧
    (labels'.getD j default_label).label = labelKey buf start llen := by
  cases hidx : find_label_idx labels (labelKey buf start llen) with
  | some j0 =>
    simp only [find_label, hidx, Option.some.injEq, Prod.mk.injEq] at h
    obtain ⟨rfl, rfl⟩ := h
    have := find_label_idx_spec labels _ _ hidx
    exact ⟨fun e he => he, this.1, this.2⟩
  | none =>
    simp only [find_label, hidx] at h
    by_cases hlt : labels.length < 16
    · rw [if_pos hlt, Option.some.injEq, Prod.mk.injEq] at h
      obtain ⟨rfl, rfl⟩ := h
      refine ⟨fun e he => List.mem_append_left _ he, by simp, ?_⟩
      rw [List.getD_eq_getElem]
      · simp
      · simp
    · rw [if_neg hlt] at h
      cases h

/-- Processing a line that consists of one bare identifier defining a label
whose entry is still unresolved: every recorded forward site is patched with
the current address, the entry is resolved to that address with its
forward list emptied, and one patch event per recorded site is logged. -/
theorem process_line_define (s : AsmState) (ident : List Char)
    (hhead : isAlphaC (getC (ident ++ [' ']) 0) = true)
    (halnum : ∀ c ∈ ident, isAlphaNumC c = true)
    (j : Nat) (fs : List Nat)
    (hfind : find_label_idx s.labels (labelKey (ident ++ [' ']) 0 ident.length) = some j)
    (hentry : s.labels.getD j default_label
        = ⟨labelKey (ident ++ [' ']) 0 ident.length, -1, fs⟩) :
    process_line s ident = { s with
      labels := s.labels.set j
        ⟨labelKey (ident ++ [' ']) 0 ident.length, (s.a : Int), []⟩,
      ram := apply_patches s.ram s.a fs,
      patch_log := s.patch_log
        ++ fs.map (fun t => (labelKey (ident ++ [' ']) 0 ident.length, t)) } := by
  have hscan1 : scan_while isAlphaNumC (ident ++ [' ']) (ident.length + 1) 0
      = ident.length :=
    scan_while_ident isAlphaNumC ident halnum (by decide) 0 (Nat.zero_le _)
  have hscan2 : scan_while isSpaceC (ident ++ [' ']) (ident.length + 1) ident.length
      = ident.length + 1 := by
    rw [scan_while_eq, if_pos]
    · rw [scan_while_eq, if_neg]
      rintro ⟨hc, -⟩
      exact lt_irrefl _ hc
    · constructor
      · omega
      · have hg : getC (ident ++ [' ']) ident.length = ' ' := by
          unfold getC
          rw [List.getD_append_right _ _ _ _ (le_refl _)]
          simp
        rw [hg]
        decide
  have hfl : find_label s.labels (ident ++ [' ']) 0 ident.length
      = some (j, s.labels) := by
    simp only [find_label, hfind]
  have hlp : label_phase s (ident ++ [' ']) (ident.length + 1)
      = (true, ident.length, { s with
          labels := s.labels.set j
            ⟨labelKey (ident ++ [' ']) 0 ident.length, (s.a : Int), []⟩,
          ram := apply_patches s.ram s.a fs,
          patch_log := s.patch_log
            ++ fs.map (fun t => (labelKey (ident ++ [' ']) 0 ident.length, t)) }) := by
    simp only [label_phase, hscan1, hfl, hhead, if_pos, hentry]
    norm_num
  unfold process_line
  simp only [hlp]
  simp only [instr_phase, hscan2]
  rw [if_neg (lt_irrefl _)]

/-- `K` has a resolved (defined) entry in the label table. -/
def label_defined (labels : List LabelEntry) (K : List Char) : Prop :=
  ∃ e ∈ labels, e.label = K ∧ 0 ≤ e.loc

theorem label_defined_set (labels : List LabelEntry) (j : Nat) (v : LabelEntry)
    (K : List Char) (hj : (labels.getD j default_label).loc < 0)
    (h : label_defined labels K) : label_defined (labels.set j v) K := by
  obtain ⟨e, he, hlabel, hloc⟩ := h
  obtain ⟨k, hk, hke⟩ := List.mem_iff_getElem.mp he
  by_cases hkj : k = j
  · subst hkj
    rw [List.getD_eq_getElem _ _ hk, hke] at hj
    omega
  · refine ⟨e, ?_, hlabel, hloc⟩
    rw [List.mem_iff_getElem]
    refine ⟨k, by simpa using hk, ?_⟩
    rw [List.getElem_set, if_neg (fun hh => hkj hh.symm)]
    exact hke

theorem mem_set_self (labels : List LabelEntry) (j : Nat) (v : LabelEntry)
    (hj : j < labels.length) : v ∈ labels.set j v := by
  rw [List.mem_iff_getElem]
  refine ⟨j, by simpa using hj, ?_⟩
  rw [List.getElem_set, if_pos rfl]

theorem emit_fields (s : AsmState) (k arg : Nat) :
    (emit s k arg).labels = s.labels ∧ (emit s k arg).patch_log = s.patch_log := by
  simp only [emit]
  split
  · exact ⟨rfl, rfl⟩
  · split
    · exact ⟨rfl, rfl⟩
    · exact ⟨rfl, rfl⟩

theorem label_phase_mono (s : AsmState) (buf : List Char) (len : Nat) (K : List Char)
    (h : label_defined s.labels K) :
    label_defined (label_phase s buf len).2.2.labels K := by
  simp only [label_phase]
  split
  · split
    · exact h
    · rename_i j labels1 heq
      have hsub := (find_label_sub _ _ _ _ _ _ heq).1
      have h1 : label_defined labels1 K := by
        obtain ⟨e, he, hl, hc⟩ := h
        exact ⟨e, hsub e he, hl, hc⟩
      split
      · exact h1
      · rename_i hneg
        exact label_defined_set labels1 j _ K (by omega) h1
  · split
    · exact h
    · exact h

theorem arg_phase_state (s : AsmState) (buf : List Char) (len i : Nat) (K : List Char) :
    ((arg_phase s buf len i).2.2.patch_log = s.patch_log) ∧
    (label_defined s.labels K → label_defined (arg_phase s buf len i).2.2.labels K) := by
  simp only [arg_phase]
  split
  · split
    · -- label-reference branch: the state is the third component of the
      -- reference-handling result; `plus_minus` never touches it
      rcases hfl : find_label s.labels buf i (scan_while isAlphaNumC buf len i - i)
        with - | ⟨j, labels1⟩
      all_goals simp only [hfl]
      · exact ⟨trivial, fun h => h⟩
      · have hsub := (find_label_sub _ _ _ _ _ _ hfl).1
        split
        · split
          · refine ⟨rfl, fun h => ?_⟩
            obtain ⟨e, he, hl, hc⟩ := h
            rename_i hloc hfwd
            exact label_defined_set labels1 j _ K (by omega) ⟨e, hsub e he, hl, hc⟩
          · refine ⟨rfl, fun h => ?_⟩
            obtain ⟨e, he, hl, hc⟩ := h
            exact ⟨e, hsub e he, hl, hc⟩
        · refine ⟨rfl, fun h => ?_⟩
          obtain ⟨e, he, hl, hc⟩ := h
          exact ⟨e, hsub e he, hl, hc⟩
    · -- plain `parse_arg` branch
      split
      · exact ⟨rfl, fun h => h⟩
      · exact ⟨rfl, fun h => h⟩
  · exact ⟨rfl, fun h => h⟩

theorem arg_phase_state_eq (s : AsmState) (buf : List Char) (len i : Nat) (K : List Char)
    (ok : Bool) (arg : Nat) (s1 : AsmState) (h : arg_phase s buf len i = (ok, arg, s1)) :
    s1.patch_log = s.patch_log ∧
    (label_defined s.labels K → label_defined s1.labels K) := by
  have := arg_phase_state s buf len i K
  rw [h] at this
  exact this

theorem instr_phase_state (s : AsmState) (buf : List Char) (len i : Nat) (K : List Char) :
    ((instr_phase s buf len i).patch_log = s.patch_log) ∧
    (label_defined s.labels K → label_defined (instr_phase s buf len i).labels K) := by
  simp only [instr_phase]
  split
  · split
    · split
      · exact ⟨rfl, fun h => h⟩
      · rename_i k hk
        split
        · split
          · rename_i arg s1 harg
            have ha := arg_phase_state_eq s buf len _ K _ _ _ harg
            refine ⟨?_, fun h => ?_⟩
            · rw [(emit_fields s1 k arg).2]
              exact ha.1
            · rw [(emit_fields s1 k arg).1]
              exact ha.2 h
          · rename_i arg s1 harg
            have ha := arg_phase_state_eq s buf len _ K _ _ _ harg
            exact ⟨ha.1, ha.2⟩
        · refine ⟨(emit_fields s k 0).2, fun h => ?_⟩
          rw [(emit_fields s k 0).1]
          exact h
    · exact ⟨rfl, fun h => h⟩
  · exact ⟨rfl, fun h => h⟩

theorem label_phase_log (s : AsmState) (buf : List Char) (len : Nat) :
    ∀ ev ∈ (label_phase s buf len).2.2.patch_log,
      ev ∈ s.patch_log ∨ label_defined (label_phase s buf len).2.2.labels ev.1 := by
  simp only [label_phase]
  split
  · split
    · exact fun ev hev => Or.inl hev
    · rename_i j labels1 heq
      have hsub := find_label_sub _ _ _ _ _ _ heq
      split
      · exact fun ev hev => Or.inl hev
      · intro ev hev
        rcases List.mem_append.mp hev with h1 | h2
        · exact Or.inl h1
        · right
          obtain ⟨t, ht, rfl⟩ := List.mem_map.mp h2
          refine ⟨⟨(labels1.getD j default_label).label, (s.a : Int), []⟩,
            mem_set_self labels1 j _ hsub.2.1, rfl, ?_⟩
          exact Int.ofNat_nonneg s.a
  · split
    · exact fun ev hev => Or.inl hev
    · exact fun ev hev => Or.inl hev

theorem process_line_mono (s : AsmState) (line : List Char) (K : List Char)
    (h : label_defined s.labels K) :
    label_defined (process_line s line).labels K := by
  simp only [process_line]
  have hlab := label_phase_mono s (line ++ [' ']) (line.length + 1) K h
  split
  · rename_i heq
    rw [heq] at hlab
    exact hlab
  · rename_i i1 s1 heq
    rw [heq] at hlab
    exact (instr_phase_state s1 (line ++ [' ']) (line.length + 1) i1 K).2 hlab

theorem process_line_log (s : AsmState) (line : List Char) :
    ∀ ev ∈ (process_line s line).patch_log,
      ev ∈ s.patch_log ∨ label_defined (process_line s line).labels ev.1 := by
  simp only [process_line]
  have hlog := label_phase_log s (line ++ [' ']) (line.length + 1)
  split
  · rename_i heq
    rw [heq] at hlog
    exact hlog
  · rename_i i1 s1 heq
    rw [heq] at hlog
    intro ev hev
    have hinstr := instr_phase_state s1 (line ++ [' ']) (line.length + 1) i1 ev.1
    rw [hinstr.1] at hev
    rcases hlog ev hev with h1 | h2
    · exact Or.inl h1
    · exact Or.inr (hinstr.2 h2)

theorem foldl_label_mono (lines : List (List Char)) (s : AsmState) (K : List Char)
    (h : label_defined s.labels K) :
    label_defined (lines.foldl process_line s).labels K := by
  induction lines generalizing s with
  | nil => exact h
  | cons l ls ih => exact ih _ (process_line_mono s l K h)

theorem foldl_no_events (lines : List (List Char)) (s : AsmState) (K : List Char)
    (hnd : ¬ label_defined (lines.foldl process_line s).labels K) :
    ∀ ev ∈ (lines.foldl process_line s).patch_log, ev ∈ s.patch_log ∨ ev.1 ≠ K := by
  induction lines generalizing s with
  | nil => exact fun ev hev => Or.inl hev
  | cons l ls ih =>
    intro ev hev
    rcases ih (process_line s l) hnd ev hev with h1 | h2
    · rcases process_line_log s l ev h1 with h3 | h4
      · exact Or.inl h3
      · by_cases hK : ev.1 = K
        · exact absurd (foldl_label_mono ls _ K (hK ▸ h4)) hnd
        · exact Or.inr hK
    · exact Or.inr h2

/-- **C2** counterexample.  Assembling the single line ` JMP XYZ+` records a
forward reference for `XYZ` (site 0) and then fails on the missing `+`
operand, so no byte is emitted and the final address equals the start
address; the undefined-label summary — printed only when the final address
exceeds the start — is therefore empty, although `XYZ` was never defined and
has a recorded forward-reference site. -/
theorem undefined_label_unreported :
    (assemble (fun _ => 0) 0 [" JMP XYZ+".toList]).2 = [] ∧
    (assemble (fun _ => 0) 0 [" JMP XYZ+".toList]).1.labels
      = [⟨"XYZ".toList, -1, [0]⟩] ∧
    (assemble (fun _ => 0) 0 [" JMP XYZ+".toList]).1.patch_log = [] ∧
    (assemble (fun _ => 0) 0 [" JMP XYZ+".toList]).1.a = 0 := by
  refine ⟨by decide, by decide, by decide, by decide⟩

/-- **C2** (amended).  Defining a label patches every recorded forward site
exactly once, at the moment of definition, merging the resolved address into
the low nibble only (sites outside the recorded list are untouched, the entry
is resolved and its forward list emptied, and one patch event per recorded
reference is logged); a label never defined by end of assembly never has any
site patched; and the undefined-label summary lists exactly the unresolved
labels — but only when the final write address exceeds the block start
address (otherwise the summary is suppressed even if unresolved labels
remain). -/
theorem label_patching (s : AsmState) (ident : List Char) (j : Nat) (fs : List Nat)
    (hhead : isAlphaC (getC (ident ++ [' ']) 0) = true)
    (halnum : ∀ c ∈ ident, isAlphaNumC c = true)
    (hfind : find_label_idx s.labels (labelKey (ident ++ [' ']) 0 ident.length) = some j)
    (hentry : s.labels.getD j default_label
        = ⟨labelKey (ident ++ [' ']) 0 ident.length, -1, fs⟩)
    (hnd : fs.Nodup) (hlt : ∀ t ∈ fs, t < 256)
    (ram0 : Ram) (addr : Nat) (lines : List (List Char)) (K : List Char) :
    ((∀ t ∈ fs, (process_line s ident).ram t = patch_byte s.a (s.ram t)) ∧
     (∀ x, x ∉ fs → (process_line s ident).ram x = s.ram x) ∧
     (process_line s ident).labels
        = s.labels.set j ⟨labelKey (ident ++ [' ']) 0 ident.length, (s.a : Int), []⟩ ∧
     (process_line s ident).patch_log
        = s.patch_log ++ fs.map fun t => (labelKey (ident ++ [' ']) 0 ident.length, t)) ∧
    ((∀ e ∈ (assemble ram0 addr lines).1.labels, e.label = K → e.loc < 0) →
      ∀ ev ∈ (assemble ram0 addr lines).1.patch_log, ev.1 ≠ K) ∧
    ((assemble ram0 addr lines).1.addr < (assemble ram0 addr lines).1.a →
      ∀ e ∈ (assemble ram0 addr lines).1.labels, e.loc < 0 →
        trunc_name e.label ∈ (assemble ram0 addr lines).2) ∧
    (∀ nm ∈ (assemble ram0 addr lines).2, ∃ e ∈ (assemble ram0 addr lines).1.labels,
        e.loc < 0 ∧ nm = trunc_name e.label) := by
  have hdef := process_line_define s ident hhead halnum j fs hfind hentry
  have hsum : (assemble ram0 addr lines).2
      = if (assemble ram0 addr lines).1.addr < (assemble ram0 addr lines).1.a then
          ((assemble ram0 addr lines).1.labels.filter fun e => e.loc < 0).map
            fun e => trunc_name e.label
        else [] := rfl
  refine ⟨⟨?_, ?_, ?_, ?_⟩, ?_, ?_, ?_⟩
  · intro t ht
    rw [hdef]
    exact apply_patches_get fs s.ram s.a t hnd hlt ht
  · intro x hx
    rw [hdef]
    refine apply_patches_unchanged fs s.ram s.a x (fun t ht => ?_)
    rw [Nat.mod_eq_of_lt (hlt t ht)]
    exact fun hc => hx (hc ▸ ht)
  · rw [hdef]
  · rw [hdef]
  · intro hundef ev hev
    have hnotdef : ¬ label_defined (assemble ram0 addr lines).1.labels K := by
      rintro ⟨e, he, hl, hc⟩
      have := hundef e he hl
      omega
    have h1 : (assemble ram0 addr lines).1
        = lines.foldl process_line ⟨addr, addr, [], ram0, []⟩ := rfl
    rw [h1] at hev hnotdef
    rcases foldl_no_events lines _ K hnotdef ev hev with h2 | h2
    · simp at h2
    · exact h2
  · intro hlt2 e he hloc
    rw [hsum, if_pos hlt2]
    exact List.mem_map.mpr ⟨e, List.mem_filter.mpr ⟨he, by simpa using hloc⟩, rfl⟩
  · intro nm hnm
    by_cases hc : (assemble ram0 addr lines).1.addr < (assemble ram0 addr lines).1.a
    · rw [hsum, if_pos hc] at hnm
      obtain ⟨e, hef, rfl⟩ := List.mem_map.mp hnm
      have := List.mem_filter.mp hef
      exact ⟨e, this.1, by simpa using this.2, rfl⟩
    · rw [hsum, if_neg hc] at hnm
      simp at hnm

/-- A concrete pre-state for the witness: label `LOO` undefined with two
recorded forward sites. -/
def c2_state : AsmState :=
  ⟨5, 0, [⟨"LOO".toList, -1, [0, 1]⟩], (fun _ => 0x67), []⟩

/-- Witness for C2 (amended) at concrete inputs. -/
theorem label_patching_witness :
    (process_line c2_state "LOO".toList).ram 0
        = patch_byte c2_state.a (c2_state.ram 0) ∧
    (process_line c2_state "LOO".toList).ram 7 = c2_state.ram 7 ∧
    (process_line c2_state "LOO".toList).labels
        = c2_state.labels.set 0
            ⟨labelKey ("LOO".toList ++ [' ']) 0 "LOO".toList.length, (c2_state.a : Int), []⟩ ∧
    (process_line c2_state "LOO".toList).patch_log
        = c2_state.patch_log
            ++ [0, 1].map
              (fun t => (labelKey ("LOO".toList ++ [' ']) 0 "LOO".toList.length, t)) ∧
    trunc_name "XYZ".toList ∈ (assemble (fun _ => 0) 0 [" JMP XYZ".toList]).2 :=
  have h := label_patching c2_state "LOO".toList 0 [0, 1] (by decide) (by decide)
    (by decide) (by decide) (by decide) (by decide)
    (fun _ => 0) 0 [" JMP XYZ".toList] "XYZ".toList
  ⟨h.1.1 0 (by decide), h.1.2.1 7 (by decide), h.1.2.2.1, h.1.2.2.2,
    h.2.2.1 (by decide) ⟨"XYZ".toList, -1, [0]⟩ (by decide) (by decide)⟩

end EightBit
